import Mathlib

/-!
Verification of the bibmanager LaTeX manager core (`latex_manager.py`):
the comment stripper `no_comments`, the citation-key extractor `citations`,
and the bibliography builder `build_bib`.  Text is modelled as `List Char`;
the Python regular expressions are embedded as executable scanners that
reproduce the (leftmost, ordered-alternation, backtracking) semantics of
`re.findall` / `re.sub` on the concrete patterns used by the source.
-/

namespace BibManager

set_option maxRecDepth 100000

set_option maxHeartbeats 1000000

/-- The left curly brace character. -/
def lbrace : Char := Char.ofNat 123

/-- The right curly brace character. -/
def rbrace : Char := Char.ofNat 125

/-- The ASCII whitespace class of Python's regex `\s` and of `str.strip()`:
space, tab, newline, carriage return, vertical tab, form feed. -/
def isWs (c : Char) : Bool :=
  c = ' ' || c = '\t' || c = '\n' || c = '\r' || c = Char.ofNat 11 || c = Char.ofNat 12

/-- Fuel-indexed scanner for `no_comments`, embedding
`re.sub(r"[^\\]%.*", "", text)`: a match is any character other than a
backslash, followed by `%`, followed by the rest of the physical line
(`.*` stops before a newline); every match is deleted and scanning resumes
after it.  With fuel at least the length of the text the fuel never runs out. -/
def noCommentsF : Nat → List Char → List Char
  | 0, s => s
  | _+1, [] => []
  | _+1, [c] => [c]
  | f+1, c :: d :: rest =>
    if d = '%' then
      if c = '\\' then c :: noCommentsF f (d :: rest)
      else noCommentsF f (rest.dropWhile (fun x => x ≠ '\n'))
    else c :: noCommentsF f (d :: rest)

/-- Embedding of `no_comments(text)` from `latex_manager.py`:
`re.sub(r"[^\\]%.*", "", text)`. -/
def no_comments (t : List Char) : List Char := noCommentsF t.length t

/-- Helper for `noUnesc`: `noUnescB prev t` is true when no `%` in `t` is
unescaped, where `prev` is the character immediately before `t`. -/
def noUnescB : Char → List Char → Bool
  | _, [] => true
  | prev, c :: rest => if c = '%' then (prev = '\\' && noUnescB c rest) else noUnescB c rest

/-- Spec-side predicate: the text contains no unescaped percent sign, i.e.
every `%` is immediately preceded by a backslash. -/
def noUnesc : List Char → Bool
  | [] => true
  | c :: rest => if c = '%' then false else noUnescB c rest

/-- Embedding of Python `str.strip()` (restricted to ASCII whitespace):
drop leading and trailing whitespace. -/
def pstrip (s : List Char) : List Char :=
  ((s.dropWhile isWs).reverse.dropWhile isWs).reverse

/-- Embedding of Python `str.split(",")`: split on every comma, keeping
empty segments; the empty string yields one empty segment. -/
def splitComma : List Char → List (List Char)
  | [] => [[]]
  | c :: rest =>
    if c = ',' then [] :: splitComma rest
    else
      match splitComma rest with
      | [] => [[c]]
      | g :: gs => (c :: g) :: gs

/-- One optional-bracket span of the citation pattern, `\[[^\]]*\]`:
an opening bracket, then everything up to the first closing bracket, then
that closing bracket.  Returns the whole span (brackets included, as the
regex group captures it) and the rest of the text. -/
def matchBr (s : List Char) : Option (List Char × List Char) :=
  match s with
  | [] => none
  | c :: rest =>
    if c = '[' then
      match rest.dropWhile (fun x => x ≠ ']') with
      | [] => none
      | _ :: r3 => some ('[' :: (rest.takeWhile (fun x => x ≠ ']') ++ [']']), r3)
    else none

/-- The mandatory brace group of the citation pattern, `{([^}]+)`:
an opening brace followed by one or more non-brace characters; no closing
brace is required.  Returns the captured content and the rest of the text
(the match ends right after the content). -/
def matchCites (s : List Char) : Option (List Char × List Char) :=
  match s with
  | [] => none
  | c :: rest =>
    if c = lbrace then
      if (rest.takeWhile (fun x => x ≠ rbrace)).isEmpty then none
      else some (rest.takeWhile (fun x => x ≠ rbrace), rest.dropWhile (fun x => x ≠ rbrace))
    else none

/-- Greedy `[\s]*` of the citation pattern. -/
def skipWs (s : List Char) : List Char := s.dropWhile isWs

/-- One match of the citation pattern: the two optional bracket groups
(empty list when the group did not participate, as `re.findall` reports
an unmatched group as the empty string) and the brace-content group. -/
structure CiteMatch where
  left : List Char
  right : List Char
  cites : List Char
deriving DecidableEq, Repr

/-- The pattern tail `[\s]*(\[[^\]]*\])?[\s]*{([^}]+)` after the first
optional bracket: try the second bracket group greedily and fall back to
leaving it empty if the brace group then fails, as regex backtracking does. -/
def matchTail2 (s : List Char) : Option (List Char × List Char × List Char) :=
  match matchBr (skipWs s) with
  | some (br, r1) =>
    match matchCites (skipWs r1) with
    | some (cs, rest) => some (br, cs, rest)
    | none =>
      match matchCites (skipWs s) with
      | some (cs, rest) => some ([], cs, rest)
      | none => none
  | none =>
    match matchCites (skipWs s) with
    | some (cs, rest) => some ([], cs, rest)
    | none => none

/-- The pattern tail `[\s]*(\[[^\]]*\])?[\s]*(\[[^\]]*\])?[\s]*{([^}]+)`
after the command name: try the first bracket group greedily, falling back
to leaving it empty, as regex backtracking does. -/
def matchTail1 (s : List Char) : Option (List Char × List Char × List Char × List Char) :=
  match matchBr (skipWs s) with
  | some (br, r1) =>
    match matchTail2 r1 with
    | some (rt, cs, rest) => some (br, rt, cs, rest)
    | none =>
      match matchTail2 (skipWs s) with
      | some (rt, cs, rest) => some ([], rt, cs, rest)
      | none => none
  | none =>
    match matchTail2 (skipWs s) with
    | some (rt, cs, rest) => some ([], rt, cs, rest)
    | none => none

/-- The natbib suffixes of the citation pattern, in the alternation order
of the source regex: `p|alp|t|alt|author|year|yearpar`. -/
def suffixList : List String := ["p", "alp", "t", "alt", "author", "year", "yearpar"]

/-- All command-name candidates of the alternation
`defcitealias|nocite|cite|[Cc]ite(?:p|alp|t|alt|author|year|yearpar)\*?`,
in the order regex backtracking tries them (the starred variant before the
plain one, since `\*?` is greedy; the two capitalisations are listed
adjacently, which is order-equivalent because at most one can match). -/
def cmdList : List (List Char) :=
  ["defcitealias".toList, "nocite".toList, "cite".toList] ++
  suffixList.flatMap (fun sfx =>
    [("Cite" ++ sfx ++ "*").toList, ("Cite" ++ sfx).toList,
     ("cite" ++ sfx ++ "*").toList, ("cite" ++ sfx).toList])

/-- Try each command-name candidate in alternation order; a candidate
succeeds when it is a literal prefix of the text and the pattern tail
matches after it, otherwise the next alternative is tried. -/
def tryCmds : List (List Char) → List Char → Option (CiteMatch × List Char)
  | [], _ => none
  | cmd :: cmds, s =>
    if cmd.isPrefixOf s then
      match matchTail1 (s.drop cmd.length) with
      | some (l, r, cs, rest) => some (⟨l, r, cs⟩, rest)
      | none => tryCmds cmds s
    else tryCmds cmds s

/-- Try the whole citation pattern at the current position: a backslash
followed by a command alternative and the pattern tail. -/
def tryMatchAt (s : List Char) : Option (CiteMatch × List Char) :=
  match s with
  | [] => none
  | c :: rest => if c = '\\' then tryCmds cmdList rest else none

/-- Fuel-indexed `re.findall` scan for the citation pattern: at each
position try the pattern; on success emit the match and resume after it,
otherwise advance one character. -/
def findAllF : Nat → List Char → List CiteMatch
  | 0, _ => []
  | f+1, t =>
    match tryMatchAt t with
    | some (m, rest) => m :: findAllF f rest
    | none =>
      match t with
      | [] => []
      | _ :: t2 => findAllF f t2

/-- All matches of the citation pattern in the text, leftmost first,
non-overlapping, as `p.findall(text)` produces them. -/
def findAll (t : List Char) : List CiteMatch := findAllF t.length t

/-- Fuel-indexed embedding of the generator `citations(text)`: for every
match, recurse into the two bracket groups, then split the brace content
on commas; every yielded key is stripped. -/
def citationsF : Nat → List Char → List (List Char)
  | 0, _ => []
  | f+1, t =>
    (findAll t).flatMap (fun m =>
      (citationsF f m.left).map pstrip ++ (citationsF f m.right).map pstrip ++
      (splitComma m.cites).map pstrip)

/-- Embedding of `citations(text)` from `latex_manager.py`, as the list of
keys the generator yields, in order. -/
def citations (t : List Char) : List (List Char) := citationsF t.length t

/-- Spec-side well-formedness of a captured bracket span: it is absent, or
it runs from an opening bracket to a closing bracket with no closing
bracket in its interior. -/
def bracketSpanOk (br : List Char) : Bool :=
  br.isEmpty ||
    (br.head? == some '[' && br.getLast? == some ']' &&
      ((br.drop 1).dropLast.all (fun c => c ≠ ']')))

/-- The literal prefix of the bibliography-declaration pattern
`\\bibliography{([^}]+)`. -/
def biblioPat : List Char := "\\bibliography\x7b".toList

/-- Fuel-indexed `re.findall` scan for `\\bibliography{([^}]+)`:
the captured group is one or more non-brace characters after the literal
command-and-brace prefix. -/
def findBiblioF : Nat → List Char → List (List Char)
  | 0, _ => []
  | f+1, t =>
    if biblioPat.isPrefixOf t then
      if ((t.drop biblioPat.length).takeWhile (fun x => x ≠ rbrace)).isEmpty then
        match t with
        | [] => []
        | _ :: t2 => findBiblioF f t2
      else
        (t.drop biblioPat.length).takeWhile (fun x => x ≠ rbrace) ::
          findBiblioF f ((t.drop biblioPat.length).dropWhile (fun x => x ≠ rbrace))
    else
      match t with
      | [] => []
      | _ :: t2 => findBiblioF f t2

/-- All captures of `re.findall(r"\\bibliography{([^}]+)", tex)`. -/
def findBiblio (t : List Char) : List (List Char) := findBiblioF t.length t

/-- One record of the external bibliography store (`bib_manager`), with its
unique citation key and an opaque payload. -/
structure BibEntry where
  key : List Char
  body : List Char
deriving DecidableEq, Repr

/-- Outcome of `build_bib`: either the `Exception` raised when no
bibliography declaration is found and no output name was given (so nothing
is exported), or a successful build carrying the exported records, the
resolved output file name, and the reported missing keys. -/
inductive BuildResult where
  | missingBiblio : BuildResult
  | ok : List BibEntry → List Char → List (List Char) → BuildResult
deriving DecidableEq, Repr

/-- Embedding of Python `list.index` on the key list: index of the first
occurrence (length of the list when absent, where Python would raise). -/
def indexOfKey (k : List Char) : List (List Char) → Nat
  | [] => 0
  | x :: xs => if x = k then 0 else indexOfKey k xs + 1

/-- Lexicographic string order on keys, as numpy compares strings. -/
def strLe : List Char → List Char → Bool
  | [], _ => true
  | _ :: _, [] => false
  | x :: xs, y :: ys => if x = y then strLe xs ys else decide (x < y)

/-- Insertion step of the sort underlying `np.unique`. -/
def insertSorted (x : List Char) : List (List Char) → List (List Char)
  | [] => [x]
  | y :: ys => if strLe x y then x :: y :: ys else y :: insertSorted x ys

/-- Sort the key list ascending. -/
def sortKeys (l : List (List Char)) : List (List Char) := l.foldr insertSorted []

/-- Remove adjacent duplicates of a sorted list. -/
def dedupAdj : List (List Char) → List (List Char)
  | [] => []
  | [x] => [x]
  | x :: y :: r => if x = y then dedupAdj (y :: r) else x :: dedupAdj (y :: r)

/-- Embedding of `np.unique`: the sorted list of distinct keys. -/
def npUnique (l : List (List Char)) : List (List Char) := dedupAdj (sortKeys l)

/-- Output-name resolution of `build_bib`: an explicit name wins; otherwise
the first `\bibliography` capture, stripped, with `.bib` appended; `none`
when neither exists. -/
def resolveBibfile (tex : List Char) (bibfile : Option (List Char)) : Option (List Char) :=
  match bibfile with
  | some f => some f
  | none =>
    match findBiblio tex with
    | [] => none
    | b :: _ => some (pstrip b ++ ".bib".toList)

/-- Embedding of `build_bib(texfile, bibfile)` from `latex_manager.py`,
with the already-read document text and the loaded store as inputs: strip
comments, resolve the output name (raising when impossible), extract and
`np.unique` the keys, compute the `np.in1d` membership mask against the
store keys, report the masked-out keys as missing, and export the first
store record of each found key via `list.index`. -/
def build_bib (texRaw : List Char) (bibfile : Option (List Char)) (store : List BibEntry) :
    BuildResult :=
  let tex := no_comments texRaw
  match resolveBibfile tex bibfile with
  | none => BuildResult.missingBiblio
  | some bf =>
    let tex_keys := npUnique (citations tex)
    let db_keys := store.map (fun b => b.key)
    let found := tex_keys.map (fun k => db_keys.contains k)
    let missing := (tex_keys.zip found).filterMap (fun p => if p.2 then none else some p.1)
    let foundKeys := (tex_keys.zip found).filterMap (fun p => if p.2 then some p.1 else none)
    let bibs := foundKeys.filterMap (fun k => store[indexOfKey k db_keys]?)
    BuildResult.ok bibs bf missing

/-- Spec-side description of the exported records: for each extracted key
(deduplicated and sorted), the first store record with that key, keys
absent from the store contributing nothing. -/
def exportedBySpec (texRaw : List Char) (store : List BibEntry) : List BibEntry :=
  (npUnique (citations (no_comments texRaw))).filterMap
    (fun k => store.find? (fun e => e.key == k))

/-- Spec-side description of the reported missing keys: the extracted keys
(deduplicated and sorted) that match no store key. -/
def missingBySpec (texRaw : List Char) (store : List BibEntry) : List (List Char) :=
  (npUnique (citations (no_comments texRaw))).filter
    (fun k => !((store.map (fun e => e.key)).contains k))

/-! Lemmas about the comment stripper. -/

theorem nocF_nil (f : Nat) : noCommentsF f [] = [] := by
  cases f <;> rfl

theorem nocF_congr :
    ∀ (f f' : Nat) (s : List Char), s.length ≤ f → s.length ≤ f' →
      noCommentsF f s = noCommentsF f' s := by
  intro f
  induction f with
  | zero =>
    intro f' s h _
    have hs : s = [] := List.eq_nil_of_length_eq_zero (Nat.le_zero.mp h)
    subst hs
    rw [nocF_nil, nocF_nil]
  | succ g ih =>
    intro f' s h h'
    match s with
    | [] => rw [nocF_nil, nocF_nil]
    | [c] =>
      cases f' with
      | zero => simp at h'
      | succ g2 => rfl
    | c :: d :: rest =>
      cases f' with
      | zero => simp at h'
      | succ g2 =>
        have hg : (d :: rest).length ≤ g := by
          simp only [List.length_cons] at h ⊢
          omega
        have hg2 : (d :: rest).length ≤ g2 := by
          simp only [List.length_cons] at h' ⊢
          omega
        have hdw : (rest.dropWhile (fun x => x ≠ '\n')).length ≤ rest.length :=
          (List.dropWhile_sublist _).length_le
        simp only [noCommentsF]
        by_cases hd : d = '%'
        · by_cases hc : c = '\\'
          · simp only [if_pos hd, if_pos hc, ih g2 (d :: rest) hg hg2]
          · simp only [if_pos hd, if_neg hc]
            refine ih g2 _ ?_ ?_
            · exact le_trans hdw (by simp only [List.length_cons] at h; omega)
            · exact le_trans hdw (by simp only [List.length_cons] at h'; omega)
        · simp only [if_neg hd, ih g2 (d :: rest) hg hg2]

theorem noc_nil : no_comments [] = [] := rfl

theorem noc_singleton (c : Char) : no_comments [c] = [c] := rfl

theorem noc_cons_cons (c d : Char) (rest : List Char) :
    no_comments (c :: d :: rest) =
      if d = '%' then
        if c = '\\' then c :: no_comments (d :: rest)
        else no_comments (rest.dropWhile (fun x => x ≠ '\n'))
      else c :: no_comments (d :: rest) := by
  have h1 : no_comments (c :: d :: rest) =
      if d = '%' then
        if c = '\\' then c :: noCommentsF (rest.length + 1) (d :: rest)
        else noCommentsF (rest.length + 1) (rest.dropWhile (fun x => x ≠ '\n'))
      else c :: noCommentsF (rest.length + 1) (d :: rest) := rfl
  have h2 : noCommentsF (rest.length + 1) (d :: rest) = no_comments (d :: rest) := rfl
  have h3 : noCommentsF (rest.length + 1) (rest.dropWhile (fun x => x ≠ '\n')) =
      no_comments (rest.dropWhile (fun x => x ≠ '\n')) :=
    nocF_congr _ _ _ (Nat.le_succ_of_le (List.dropWhile_sublist _).length_le) (Nat.le_refl _)
  rw [h1, h2, h3]

theorem noUnescB_noc (f : Nat) :
    ∀ (t : List Char) (p : Char), noUnescB p t = true → noCommentsF f t = t := by
  induction f with
  | zero => intro t p _; rfl
  | succ g ih =>
    intro t p h
    match t with
    | [] => rfl
    | [c] => rfl
    | c :: d :: rest =>
      have hcd : noUnescB c (d :: rest) = true := by
        simp only [noUnescB] at h
        by_cases hc : c = '%'
        · rw [if_pos hc, Bool.and_eq_true] at h
          exact h.2
        · rwa [if_neg hc] at h
      simp only [noCommentsF]
      by_cases hd : d = '%'
      · have hsplit : decide (c = '\\') = true ∧ noUnescB d rest = true := by
          have h2 := hcd
          simp only [noUnescB, if_pos hd, Bool.and_eq_true] at h2
          exact h2
        have hc : c = '\\' := of_decide_eq_true hsplit.1
        rw [if_pos hd, if_pos hc, ih (d :: rest) c hcd]
      · rw [if_neg hd, ih (d :: rest) c hcd]

theorem noc_of_noUnescB {t : List Char} (p : Char) (h : noUnescB p t = true) :
    no_comments t = t :=
  noUnescB_noc _ t p h

theorem noUnescB_of_not_mem {t : List Char} (h : '%' ∉ t) (p : Char) :
    noUnescB p t = true := by
  induction t generalizing p with
  | nil => rfl
  | cons c rest ih =>
    have hc : ¬ c = '%' := fun hx => h (hx ▸ List.mem_cons_self c rest)
    simp only [noUnescB, if_neg hc]
    exact ih (fun hm => h (List.mem_cons_of_mem _ hm)) c

theorem noc_of_not_mem {t : List Char} (h : '%' ∉ t) : no_comments t = t :=
  noc_of_noUnescB 'a' (noUnescB_of_not_mem h 'a')

theorem noc_of_noUnesc {t : List Char} (h : noUnesc t = true) : no_comments t = t := by
  match t with
  | [] => rfl
  | c :: rest =>
    have hc : ¬ c = '%' := by
      intro hx
      simp only [noUnesc, if_pos hx] at h
      exact absurd h (by decide)
    have h2 : noUnescB c rest = true := by
      simpa only [noUnesc, if_neg hc] using h
    have h3 : noUnescB 'a' (c :: rest) = true := by
      simp only [noUnescB, if_neg hc]
      exact h2
    exact noc_of_noUnescB 'a' h3

theorem count_nocF_le (f : Nat) :
    ∀ t : List Char, (noCommentsF f t).count '\n' ≤ t.count '\n' := by
  induction f with
  | zero => intro t; exact Nat.le_refl _
  | succ g ih =>
    intro t
    match t with
    | [] => exact Nat.le_refl _
    | [c] => exact Nat.le_refl _
    | c :: d :: rest =>
      have hstep1 : rest.count '\n' ≤ (d :: rest).count '\n' := by
        rw [List.count_cons]
        exact Nat.le_add_right _ _
      have hstep2 : (d :: rest).count '\n' ≤ (c :: d :: rest).count '\n' := by
        rw [List.count_cons '\n' c]
        exact Nat.le_add_right _ _
      simp only [noCommentsF]
      by_cases hd : d = '%'
      · by_cases hc : c = '\\'
        · rw [if_pos hd, if_pos hc, List.count_cons '\n' c, List.count_cons '\n' c]
          exact Nat.add_le_add_right (ih (d :: rest)) _
        · rw [if_pos hd, if_neg hc]
          calc (noCommentsF g (rest.dropWhile (fun x => x ≠ '\n'))).count '\n'
              ≤ (rest.dropWhile (fun x => x ≠ '\n')).count '\n' := ih _
            _ ≤ rest.count '\n' := (List.dropWhile_sublist _).count_le _
            _ ≤ (c :: d :: rest).count '\n' := le_trans hstep1 hstep2
      · rw [if_neg hd, List.count_cons '\n' c, List.count_cons '\n' c]
        exact Nat.add_le_add_right (ih (d :: rest)) _

theorem count_noc_le (t : List Char) : (no_comments t).count '\n' ≤ t.count '\n' :=
  count_nocF_le _ t

theorem noc_append :
    ∀ (u : List Char), '%' ∉ u →
      ∀ rest : List Char, (∀ d, rest.head? = some d → d ≠ '%') →
        no_comments (u ++ rest) = u ++ no_comments rest := by
  intro u
  induction u with
  | nil => intro _ rest _; rfl
  | cons a u' ih =>
    intro hu rest hr
    have hu' : '%' ∉ u' := fun hm => hu (List.mem_cons_of_mem _ hm)
    match u' with
    | [] =>
      match rest with
      | [] => simp [noc_singleton, noc_nil]
      | d :: r' =>
        have hd : d ≠ '%' := hr d rfl
        show no_comments (a :: d :: r') = a :: no_comments (d :: r')
        rw [noc_cons_cons, if_neg hd]
    | b :: u'' =>
      have hb : ¬ b = '%' := fun hx => hu' (hx ▸ List.mem_cons_self b u'')
      show no_comments (a :: b :: (u'' ++ rest)) = a :: ((b :: u'') ++ no_comments rest)
      rw [noc_cons_cons, if_neg hb]
      exact congrArg (List.cons a) (ih hu' rest hr)

theorem dropWhile_boundary (v w : List Char) (hv : '\n' ∉ v) :
    (v ++ '\n' :: w).dropWhile (fun x => x ≠ '\n') = '\n' :: w := by
  have hall : ∀ a ∈ v, (fun x => decide (x ≠ '\n')) a = true := by
    intro a ha
    simp only [decide_eq_true_eq]
    exact fun hx => hv (hx ▸ ha)
  rw [List.dropWhile_append_of_pos hall]
  simp

/-- Claim C1 (counterexample): `no_comments` does not preserve every
character before the `%` of a comment: on `"ab% c"` the character `b`
immediately preceding the `%` is deleted along with the comment, so the
output is `"a"`, not `"ab"` as the claim requires. -/
theorem C1_counterexample :
    no_comments ("ab% c".toList) = "a".toList ∧
      no_comments ("ab% c".toList) ≠ "ab".toList := by
  constructor
  · decide
  · decide

/-- Claim C1 (amended): a comment starts at a `%` that is not immediately
preceded by a backslash and has at least one preceding character; the
removed span is that single preceding character, the `%`, and the rest of
the physical line; all earlier characters are preserved and scanning
continues at the line's terminating break.  Additionally, text in which
every `%` is escaped is returned verbatim. -/
theorem C1_amended :
    (∀ (u : List Char) (c : Char) (v w : List Char),
      '%' ∉ u → c ≠ '\\' → c ≠ '%' → '\n' ∉ v →
      no_comments (u ++ c :: '%' :: (v ++ '\n' :: w)) = u ++ no_comments ('\n' :: w)) ∧
    (∀ t : List Char, noUnesc t = true → no_comments t = t) := by
  constructor
  · intro u c v w hu hc hcp hv
    rw [noc_append u hu _ (fun d hd => by
      simp only [List.head?] at hd
      exact (Option.some.inj hd) ▸ hcp)]
    rw [noc_cons_cons, if_pos rfl, if_neg hc, dropWhile_boundary v w hv]
  · intro t h
    exact noc_of_noUnesc h

/-- Witness for the amended claim C1 at concrete inputs. -/
theorem C1_amended_witness :
    ('%' ∉ "xy".toList ∧ ('o' : Char) ≠ '\\' ∧ ('o' : Char) ≠ '%' ∧ '\n' ∉ "vv".toList ∧
      noUnesc "a \\% b".toList = true) ∧
    no_comments ("xy".toList ++ 'o' :: '%' :: ("vv".toList ++ '\n' :: "tail".toList)) =
      "xy".toList ++ no_comments ('\n' :: "tail".toList) ∧
    no_comments "a \\% b".toList = "a \\% b".toList :=
  ⟨by decide,
   C1_amended.1 "xy".toList 'o' "vv".toList "tail".toList
     (by decide) (by decide) (by decide) (by decide),
   C1_amended.2 "a \\% b".toList (by decide)⟩

/-- Claim C2 (counterexample): the number of line breaks is not preserved:
on `"a\n%b\nc"` the comment-only line `%b` is removed together with the
line break preceding its `%`, so the output `"a\nc"` has one line break
where the input has two. -/
theorem C2_counterexample :
    (no_comments ("a\n%b\nc".toList)).count '\n' = 1 ∧
      ("a\n%b\nc".toList).count '\n' = 2 := by
  constructor
  · decide
  · decide

/-- Claim C2 (amended): the number of line breaks in the output is at most
the number in the input; it can be strictly smaller, because a comment
whose `%` is preceded by a line break consumes that break, so a line
consisting entirely of a comment is deleted rather than left empty. -/
theorem C2_amended (t : List Char) :
    (no_comments t).count '\n' ≤ t.count '\n' :=
  count_noc_le t

/-- Claim C10 (counterexample): a comment beginning at position 0 is not
always left unremoved: on `"%%x"` the leading `%` is consumed as the
character preceding the second `%`, and the whole text is deleted. -/
theorem C10_counterexample :
    no_comments ("%%x".toList) = [] ∧ "%%x".toList ≠ [] := by
  constructor
  · decide
  · decide

/-- Claim C10 (amended): a `%` at position 0 never itself matches the
comment pattern, which requires a preceding character; thus when the text
contains no further `%`, a comment beginning at position 0 is left
unremoved and the text is returned verbatim. -/
theorem C10_amended :
    ∀ rest : List Char, '%' ∉ rest → no_comments ('%' :: rest) = '%' :: rest := by
  intro rest h
  match rest with
  | [] => exact noc_singleton '%'
  | d :: r' =>
    have hd : ¬ d = '%' := fun hx => h (hx ▸ List.mem_cons_self d r')
    rw [noc_cons_cons, if_neg hd, noc_of_not_mem h]

/-- Witness for the amended claim C10 at a concrete input. -/
theorem C10_amended_witness :
    '%' ∉ "comment".toList ∧
      no_comments ('%' :: "comment".toList) = '%' :: "comment".toList :=
  ⟨by decide, C10_amended "comment".toList (by decide)⟩

/-! Lemmas about the citation scanner. -/

theorem skipWs_le (s : List Char) : (skipWs s).length ≤ s.length :=
  (List.dropWhile_sublist _).length_le

theorem matchBr_sound {s br r : List Char} (h : matchBr s = some (br, r)) :
    br.length + r.length = s.length ∧ 2 ≤ br.length ∧ bracketSpanOk br = true := by
  match s with
  | [] => simp [matchBr] at h
  | c :: rest =>
    simp only [matchBr] at h
    by_cases hc : c = '['
    · rw [if_pos hc] at h
      cases hdw : rest.dropWhile (fun x => x ≠ ']') with
      | nil => rw [hdw] at h; simp at h
      | cons e r3 =>
        rw [hdw] at h
        simp only [Option.some.injEq, Prod.mk.injEq] at h
        obtain ⟨hbr, hr⟩ := h
        subst hbr
        subst hr
        have htd : rest.takeWhile (fun x => x ≠ ']') ++ (e :: r3) = rest := by
          rw [← hdw]
          exact List.takeWhile_append_dropWhile _ _
        have hlen := congrArg List.length htd
        simp only [List.length_append, List.length_cons, List.length_nil] at hlen
        refine ⟨?_, ?_, ?_⟩
        · simp only [List.length_cons, List.length_append, List.length_nil]
          omega
        · simp only [List.length_cons, List.length_append, List.length_nil]
          omega
        · have h2 : ('[' :: (rest.takeWhile (fun x => x ≠ ']') ++ [']'])).getLast? =
              some ']' := by
            rw [show ('[' :: (rest.takeWhile (fun x => x ≠ ']') ++ [']'])) =
                ('[' :: rest.takeWhile (fun x => x ≠ ']')) ++ [']'] from rfl]
            exact List.getLast?_concat _
          have h3 : (('[' :: (rest.takeWhile (fun x => x ≠ ']') ++ [']'])).drop 1).dropLast =
              rest.takeWhile (fun x => x ≠ ']') := by
            simp only [List.drop_succ_cons, List.drop_zero]
            exact List.dropLast_concat
          have h4 : (rest.takeWhile (fun x => x ≠ ']')).all (fun x => x ≠ ']') = true :=
            List.all_takeWhile
          simp only [bracketSpanOk, h2, h3, h4, List.head?_cons, List.isEmpty_cons,
            Bool.false_or]
          simp
    · rw [if_neg hc] at h
      simp at h

theorem matchCites_sound {s cs r : List Char} (h : matchCites s = some (cs, r)) :
    cs.length + r.length < s.length ∧ cs ≠ [] := by
  match s with
  | [] => simp [matchCites] at h
  | c :: rest =>
    simp only [matchCites] at h
    by_cases hc : c = lbrace
    · rw [if_pos hc] at h
      by_cases he : (rest.takeWhile (fun x => x ≠ rbrace)).isEmpty
      · rw [if_pos he] at h
        simp at h
      · rw [if_neg he] at h
        simp only [Option.some.injEq, Prod.mk.injEq] at h
        obtain ⟨hcs, hr⟩ := h
        subst hcs
        subst hr
        have htd := List.takeWhile_append_dropWhile (fun x => decide (x ≠ rbrace)) rest
        have hlen := congrArg List.length htd
        simp only [List.length_append] at hlen
        have hne : rest.takeWhile (fun x => x ≠ rbrace) ≠ [] := by
          intro hnil
          rw [hnil] at he
          exact he rfl
        refine ⟨?_, hne⟩
        have hpos : 1 ≤ (rest.takeWhile (fun x => x ≠ rbrace)).length := by
          cases hq : rest.takeWhile (fun x => x ≠ rbrace) with
          | nil => exact absurd hq hne
          | cons a as => simp
        simp only [List.length_cons]
        omega
    · rw [if_neg hc] at h
      simp at h

theorem matchTail2_sound {s rt cs rest : List Char}
    (h : matchTail2 s = some (rt, cs, rest)) :
    rt.length + cs.length + rest.length < s.length ∧ bracketSpanOk rt = true := by
  have hskip : (skipWs s).length ≤ s.length := skipWs_le s
  unfold matchTail2 at h
  split at h
  next br r1 hbr =>
    have hbrS := matchBr_sound hbr
    split at h
    next cs2 rest2 hcs =>
      have hcsS := matchCites_sound hcs
      have hskip2 : (skipWs r1).length ≤ r1.length := skipWs_le r1
      simp only [Option.some.injEq, Prod.mk.injEq] at h
      obtain ⟨h1, h2, h3⟩ := h
      subst h1
      subst h2
      subst h3
      exact ⟨by omega, hbrS.2.2⟩
    next hcs =>
      split at h
      next cs2 rest2 hcs2 =>
        have hcsS := matchCites_sound hcs2
        simp only [Option.some.injEq, Prod.mk.injEq] at h
        obtain ⟨h1, h2, h3⟩ := h
        subst h1
        subst h2
        subst h3
        exact ⟨by simp only [List.length_nil]; omega, by decide⟩
      next => simp at h
  next hbr =>
    split at h
    next cs2 rest2 hcs2 =>
      have hcsS := matchCites_sound hcs2
      simp only [Option.some.injEq, Prod.mk.injEq] at h
      obtain ⟨h1, h2, h3⟩ := h
      subst h1
      subst h2
      subst h3
      exact ⟨by simp only [List.length_nil]; omega, by decide⟩
    next => simp at h

theorem matchTail1_sound {s l rt cs rest : List Char}
    (h : matchTail1 s = some (l, rt, cs, rest)) :
    l.length + rt.length + cs.length + rest.length < s.length ∧
      bracketSpanOk l = true ∧ bracketSpanOk rt = true := by
  have hskip : (skipWs s).length ≤ s.length := skipWs_le s
  unfold matchTail1 at h
  split at h
  next br r1 hbr =>
    have hbrS := matchBr_sound hbr
    split at h
    next rt2 cs2 rest2 htail =>
      have htS := matchTail2_sound htail
      simp only [Option.some.injEq, Prod.mk.injEq] at h
      obtain ⟨h1, h2, h3, h4⟩ := h
      subst h1
      subst h2
      subst h3
      subst h4
      exact ⟨by omega, hbrS.2.2, htS.2⟩
    next htail =>
      split at h
      next rt2 cs2 rest2 htail2 =>
        have htS := matchTail2_sound htail2
        simp only [Option.some.injEq, Prod.mk.injEq] at h
        obtain ⟨h1, h2, h3, h4⟩ := h
        subst h1
        subst h2
        subst h3
        subst h4
        exact ⟨by simp only [List.length_nil]; omega, by decide, htS.2⟩
      next => simp at h
  next hbr =>
    split at h
    next rt2 cs2 rest2 htail2 =>
      have htS := matchTail2_sound htail2
      simp only [Option.some.injEq, Prod.mk.injEq] at h
      obtain ⟨h1, h2, h3, h4⟩ := h
      subst h1
      subst h2
      subst h3
      subst h4
      exact ⟨by simp only [List.length_nil]; omega, by decide, htS.2⟩
    next => simp at h

theorem tryCmds_sound :
    ∀ (cmds : List (List Char)) (s : List Char) (m : CiteMatch) (rest : List Char),
      tryCmds cmds s = some (m, rest) →
      m.left.length + m.right.length + m.cites.length + rest.length < s.length ∧
        bracketSpanOk m.left = true ∧ bracketSpanOk m.right = true := by
  intro cmds
  induction cmds with
  | nil =>
    intro s m rest h
    simp [tryCmds] at h
  | cons cmd cmds ih =>
    intro s m rest h
    simp only [tryCmds] at h
    by_cases hp : cmd.isPrefixOf s
    · rw [if_pos hp] at h
      split at h
      next l r cs rest2 htail =>
        have hS := matchTail1_sound htail
        have hdrop : (s.drop cmd.length).length ≤ s.length := by
          rw [List.length_drop]
          omega
        simp only [Option.some.injEq, Prod.mk.injEq] at h
        obtain ⟨hm, hrest⟩ := h
        subst hm
        subst hrest
        exact ⟨by simp only; omega, hS.2.1, hS.2.2⟩
      next htail => exact ih s m rest h
    · rw [if_neg hp] at h
      exact ih s m rest h

theorem tryMatchAt_sound {s : List Char} {m : CiteMatch} {rest : List Char}
    (h : tryMatchAt s = some (m, rest)) :
    m.left.length + m.right.length + m.cites.length + rest.length < s.length ∧
      bracketSpanOk m.left = true ∧ bracketSpanOk m.right = true := by
  match s with
  | [] => simp [tryMatchAt] at h
  | c :: rest0 =>
    simp only [tryMatchAt] at h
    by_cases hc : c = '\\'
    · rw [if_pos hc] at h
      have hS := tryCmds_sound cmdList rest0 m rest h
      refine ⟨?_, hS.2⟩
      simp only [List.length_cons]
      omega
    · rw [if_neg hc] at h
      simp at h

theorem findAllF_nil (f : Nat) : findAllF f [] = [] := by
  cases f <;> rfl

theorem findAllF_succ_some {f : Nat} {t : List Char} {m : CiteMatch} {rest : List Char}
    (h : tryMatchAt t = some (m, rest)) :
    findAllF (f + 1) t = m :: findAllF f rest := by
  simp only [findAllF, h]

theorem findAllF_succ_none {f : Nat} {c : Char} {t0 : List Char}
    (h : tryMatchAt (c :: t0) = none) :
    findAllF (f + 1) (c :: t0) = findAllF f t0 := by
  simp only [findAllF, h]

theorem findAllF_congr :
    ∀ (f f' : Nat) (t : List Char), t.length ≤ f → t.length ≤ f' →
      findAllF f t = findAllF f' t := by
  intro f
  induction f with
  | zero =>
    intro f' t h _
    have ht : t = [] := List.eq_nil_of_length_eq_zero (Nat.le_zero.mp h)
    subst ht
    rw [findAllF_nil, findAllF_nil]
  | succ g ih =>
    intro f' t h h'
    cases t with
    | nil => rw [findAllF_nil, findAllF_nil]
    | cons c t0 =>
      cases f' with
      | zero => simp at h'
      | succ g' =>
        cases htm : tryMatchAt (c :: t0) with
        | some pr =>
          obtain ⟨m, rest⟩ := pr
          have hS := tryMatchAt_sound htm
          rw [findAllF_succ_some htm, findAllF_succ_some htm]
          have hle : rest.length ≤ g := by
            simp only [List.length_cons] at h hS
            omega
          have hle' : rest.length ≤ g' := by
            simp only [List.length_cons] at h' hS
            omega
          rw [ih g' rest hle hle']
        | none =>
          rw [findAllF_succ_none htm, findAllF_succ_none htm]
          refine ih g' t0 ?_ ?_
          · simp only [List.length_cons] at h
            omega
          · simp only [List.length_cons] at h'
            omega

theorem findAll_eq_some {t : List Char} {m : CiteMatch} {rest : List Char}
    (h : tryMatchAt t = some (m, rest)) :
    findAll t = m :: findAll rest := by
  have hS := tryMatchAt_sound h
  cases t with
  | nil => simp [tryMatchAt] at h
  | cons c t0 =>
    show findAllF (t0.length + 1) (c :: t0) = m :: findAll rest
    rw [findAllF_succ_some h]
    unfold findAll
    rw [findAllF_congr t0.length rest.length rest
      (by simp only [List.length_cons] at hS; omega) (Nat.le_refl _)]

theorem findAll_eq_none {c : Char} {t0 : List Char} (h : tryMatchAt (c :: t0) = none) :
    findAll (c :: t0) = findAll t0 := by
  show findAllF (t0.length + 1) (c :: t0) = findAll t0
  rw [findAllF_succ_none h]
  rfl

theorem findAllF_sound :
    ∀ (f : Nat) (t : List Char), t.length ≤ f →
      ∀ m ∈ findAllF f t,
        (m.left.length < t.length ∧ m.right.length < t.length) ∧
          bracketSpanOk m.left = true ∧ bracketSpanOk m.right = true := by
  intro f
  induction f with
  | zero =>
    intro t _ m hm
    simp [findAllF] at hm
  | succ g ih =>
    intro t h m hm
    cases t with
    | nil => rw [findAllF_nil] at hm; simp at hm
    | cons c t0 =>
      cases htm : tryMatchAt (c :: t0) with
      | some pr =>
        obtain ⟨m0, rest⟩ := pr
        have hS := tryMatchAt_sound htm
        rw [findAllF_succ_some htm] at hm
        cases hm with
        | head =>
          refine ⟨⟨?_, ?_⟩, hS.2⟩
          · omega
          · omega
        | tail _ hm2 =>
          have hrest : rest.length ≤ g := by
            simp only [List.length_cons] at h hS
            omega
          have hres := ih rest hrest m hm2
          refine ⟨⟨?_, ?_⟩, hres.2⟩
          · have := hres.1.1
            simp only [List.length_cons] at hS ⊢
            omega
          · have := hres.1.2
            simp only [List.length_cons] at hS ⊢
            omega
      | none =>
        rw [findAllF_succ_none htm] at hm
        have ht0 : t0.length ≤ g := by
          simp only [List.length_cons] at h
          omega
        have hres := ih t0 ht0 m hm
        refine ⟨⟨?_, ?_⟩, hres.2⟩
        · have := hres.1.1
          simp only [List.length_cons]
          omega
        · have := hres.1.2
          simp only [List.length_cons]
          omega

theorem findAll_sound {t : List Char} {m : CiteMatch} (hm : m ∈ findAll t) :
    (m.left.length < t.length ∧ m.right.length < t.length) ∧
      bracketSpanOk m.left = true ∧ bracketSpanOk m.right = true :=
  findAllF_sound t.length t (Nat.le_refl _) m hm

theorem citationsF_succ (f : Nat) (t : List Char) :
    citationsF (f + 1) t =
      (findAll t).flatMap (fun m =>
        (citationsF f m.left).map pstrip ++ (citationsF f m.right).map pstrip ++
        (splitComma m.cites).map pstrip) := rfl

theorem citationsF_congr :
    ∀ (f f' : Nat) (t : List Char), t.length ≤ f → t.length ≤ f' →
      citationsF f t = citationsF f' t := by
  intro f
  induction f with
  | zero =>
    intro f' t h _
    have ht : t = [] := List.eq_nil_of_length_eq_zero (Nat.le_zero.mp h)
    subst ht
    cases f' with
    | zero => rfl
    | succ g' => rfl
  | succ g ih =>
    intro f' t h h'
    cases f' with
    | zero =>
      have ht : t = [] := List.eq_nil_of_length_eq_zero (Nat.le_zero.mp h')
      subst ht
      rfl
    | succ g' =>
      rw [citationsF_succ, citationsF_succ]
      apply List.flatMap_congr
      intro m hm
      have hS := findAll_sound hm
      have h1 : m.left.length ≤ g := by omega
      have h1' : m.left.length ≤ g' := by omega
      have h2 : m.right.length ≤ g := by omega
      have h2' : m.right.length ≤ g' := by omega
      rw [ih g' m.left h1 h1', ih g' m.right h2 h2']

theorem citationsF_full {f : Nat} {t : List Char} (h : t.length ≤ f) :
    citationsF f t = citations t :=
  citationsF_congr f t.length t h (Nat.le_refl _)

theorem citations_eq (t : List Char) :
    citations t =
      (findAll t).flatMap (fun m =>
        (citations m.left).map pstrip ++ (citations m.right).map pstrip ++
        (splitComma m.cites).map pstrip) := by
  cases t with
  | nil => rfl
  | cons c t0 =>
    show citationsF (t0.length + 1) (c :: t0) = _
    rw [citationsF_succ]
    apply List.flatMap_congr
    intro m hm
    have hS := findAll_sound hm
    have h1 : citationsF t0.length m.left = citations m.left :=
      citationsF_full (by simp only [List.length_cons] at hS; omega)
    have h2 : citationsF t0.length m.right = citations m.right :=
      citationsF_full (by simp only [List.length_cons] at hS; omega)
    rw [h1, h2]

/-! Lemmas about the bibliography builder. -/

theorem zip_mask_filterMap_pos (l : List (List Char)) (p : List Char → Bool) :
    (l.zip (l.map p)).filterMap (fun q => if q.2 then some q.1 else none) =
      l.filter p := by
  induction l with
  | nil => rfl
  | cons x xs ih =>
    simp only [List.map_cons, List.zip_cons_cons, List.filterMap_cons, List.filter_cons]
    by_cases hp : p x = true
    · simp [hp, ih]
    · simp [hp, ih]

theorem zip_mask_filterMap_neg (l : List (List Char)) (p : List Char → Bool) :
    (l.zip (l.map p)).filterMap (fun q => if q.2 then none else some q.1) =
      l.filter (fun x => !(p x)) := by
  induction l with
  | nil => rfl
  | cons x xs ih =>
    simp only [List.map_cons, List.zip_cons_cons, List.filterMap_cons, List.filter_cons]
    by_cases hp : p x = true
    · simp [hp, ih]
    · simp [hp, ih]

theorem getElem_indexOfKey (store : List BibEntry) (k : List Char) :
    store[indexOfKey k (store.map (fun b => b.key))]? =
      store.find? (fun e => e.key == k) := by
  induction store with
  | nil => rfl
  | cons e es ih =>
    simp only [List.map_cons, indexOfKey]
    by_cases hk : e.key = k
    · rw [if_pos hk]
      simp [List.find?, hk]
    · rw [if_neg hk]
      simp only [List.getElem?_cons_succ]
      rw [ih]
      have hb : (e.key == k) = false := by
        simpa using hk
      simp [List.find?, hb]

theorem find?_eq_none_of_not_contains (store : List BibEntry) (k : List Char)
    (h : (store.map (fun b => b.key)).contains k = false) :
    store.find? (fun e => e.key == k) = none := by
  induction store with
  | nil => rfl
  | cons e es ih =>
    simp only [List.map_cons, List.contains_cons, Bool.or_eq_false_iff] at h
    have h1 : ¬ (k = e.key) := by
      have h2 := h.1
      rwa [beq_eq_false_iff_ne, ne_eq] at h2
    have hb : (e.key == k) = false := by
      rw [beq_eq_false_iff_ne, ne_eq]
      exact fun hx => h1 hx.symm
    simp only [List.find?_cons, hb]
    exact ih h.2

theorem filterMap_filter_of_none (l : List (List Char)) (p : List Char → Bool)
    (f : List Char → Option BibEntry) (hf : ∀ x, p x = false → f x = none) :
    (l.filter p).filterMap f = l.filterMap f := by
  induction l with
  | nil => rfl
  | cons x xs ih =>
    by_cases hp : p x = true
    · simp [List.filter_cons, hp, List.filterMap_cons, ih]
    · have hb : p x = false := by
        simpa using hp
      simp [List.filter_cons, hb, List.filterMap_cons, hf x hb, ih]

/-! Claim theorems about the citation extractor and builder. -/

/-- Claim C3: `citations` yields keys match by match in text order; within
one match the keys found by recursing into the pre-note bracket come
first, then those of the post-note bracket, then the trimmed
comma-separated keys of the brace argument; in particular on
`\citep[see also \citealp{M}][]{N}` it yields exactly `["M", "N"]`. -/
theorem C3_ordering :
    citations ("\\citep[see also \\citealp\x7bM\x7d][]\x7bN\x7d".toList) =
      ["M".toList, "N".toList] ∧
    ∀ t : List Char,
      citations t =
        (findAll t).flatMap (fun m =>
          (citations m.left).map pstrip ++ (citations m.right).map pstrip ++
          (splitComma m.cites).map pstrip) :=
  ⟨by decide, citations_eq⟩

/-- Claim C4: every documented command family — `\cite`, `\nocite`,
`\defcitealias`, and `cite` with each suffix in
`p, alp, t, alt, author, year, yearpar`, optionally capitalised and/or
starred — applied to a distinct single key yields exactly that key, one
per command, in order; near-miss commands outside the families
(`\Cite`, `\Nocite`, `\citex`, `\CITE`) yield nothing. -/
theorem C4_all_families :
    citations (("\\cite\x7bk01\x7d \\nocite\x7bk02\x7d \\defcitealias\x7bk03\x7d " ++
        "\\citep\x7bk04\x7d \\citep*\x7bk05\x7d \\Citep\x7bk06\x7d \\Citep*\x7bk07\x7d " ++
        "\\citealp\x7bk08\x7d \\citealp*\x7bk09\x7d \\Citealp\x7bk10\x7d \\Citealp*\x7bk11\x7d " ++
        "\\citet\x7bk12\x7d \\citet*\x7bk13\x7d \\Citet\x7bk14\x7d \\Citet*\x7bk15\x7d " ++
        "\\citealt\x7bk16\x7d \\citealt*\x7bk17\x7d \\Citealt\x7bk18\x7d \\Citealt*\x7bk19\x7d " ++
        "\\citeauthor\x7bk20\x7d \\citeauthor*\x7bk21\x7d \\Citeauthor\x7bk22\x7d " ++
        "\\Citeauthor*\x7bk23\x7d \\citeyear\x7bk24\x7d \\citeyear*\x7bk25\x7d " ++
        "\\Citeyear\x7bk26\x7d \\Citeyear*\x7bk27\x7d \\citeyearpar\x7bk28\x7d " ++
        "\\citeyearpar*\x7bk29\x7d \\Citeyearpar\x7bk30\x7d \\Citeyearpar*\x7bk31\x7d").toList) =
      ["k01".toList, "k02".toList, "k03".toList, "k04".toList, "k05".toList,
       "k06".toList, "k07".toList, "k08".toList, "k09".toList, "k10".toList,
       "k11".toList, "k12".toList, "k13".toList, "k14".toList, "k15".toList,
       "k16".toList, "k17".toList, "k18".toList, "k19".toList, "k20".toList,
       "k21".toList, "k22".toList, "k23".toList, "k24".toList, "k25".toList,
       "k26".toList, "k27".toList, "k28".toList, "k29".toList, "k30".toList,
       "k31".toList] ∧
    citations ("\\Cite\x7bz1\x7d \\Nocite\x7bz2\x7d \\citex\x7bz3\x7d \\CITE\x7bz4\x7d".toList) =
      [] := by
  constructor
  · decide
  · decide

/-- Claim C5 (counterexample): a closing bracket preceded by a backslash
does terminate the bracket span: on `\cite[a\]{X}]{K}` the captured
pre-note span is `[a\]` and the brace group is `X`, so the extractor
yields `["X"]` and not `["K"]` as unescaped-bracket scanning would. -/
theorem C5_counterexample :
    findAll ("\\cite[a\\]\x7bX\x7d]\x7bK\x7d".toList) =
      [⟨"[a\\]".toList, [], "X".toList⟩] ∧
    citations ("\\cite[a\\]\x7bX\x7d]\x7bK\x7d".toList) = ["X".toList] := by
  constructor
  · decide
  · decide

/-- Claim C5 (amended): each optional bracket argument's span extends from
its opening bracket to the next closing bracket, whether or not that
bracket is preceded by a backslash; consequently the interior of every
captured span contains no closing bracket. -/
theorem C5_amended :
    ∀ (t : List Char) (m : CiteMatch), m ∈ findAll t →
      bracketSpanOk m.left = true ∧ bracketSpanOk m.right = true := by
  intro t m hm
  exact (findAll_sound hm).2

/-- Witness for the amended claim C5 at a concrete input. -/
theorem C5_amended_witness :
    (⟨"[pre]".toList, [], "K".toList⟩ : CiteMatch) ∈
        findAll ("\\cite[pre]\x7bK\x7d".toList) ∧
      bracketSpanOk ((⟨"[pre]".toList, [], "K".toList⟩ : CiteMatch).left) = true ∧
      bracketSpanOk ((⟨"[pre]".toList, [], "K".toList⟩ : CiteMatch).right) = true :=
  ⟨by decide,
   C5_amended ("\\cite[pre]\x7bK\x7d".toList) ⟨"[pre]".toList, [], "K".toList⟩ (by decide)⟩

/-- Claim C6: the recursive extraction terminates on every finite input:
both bracket groups of every match are strictly shorter than the
enclosing text, and the fuelled recursion is already stable at fuel equal
to the text length, so `citations` yields a finite list. -/
theorem C6_termination :
    (∀ (t : List Char) (m : CiteMatch), m ∈ findAll t →
      m.left.length < t.length ∧ m.right.length < t.length) ∧
    (∀ (f : Nat) (t : List Char), t.length ≤ f → citationsF f t = citations t) :=
  ⟨fun _ _ hm => (findAll_sound hm).1, fun _ _ h => citationsF_full h⟩

/-- Witness for claim C6 at a concrete input. -/
theorem C6_termination_witness :
    ((⟨[], [], "A".toList⟩ : CiteMatch) ∈ findAll ("\\cite\x7bA\x7d".toList) ∧
      ((⟨[], [], "A".toList⟩ : CiteMatch).left.length <
          ("\\cite\x7bA\x7d".toList).length ∧
        (⟨[], [], "A".toList⟩ : CiteMatch).right.length <
          ("\\cite\x7bA\x7d".toList).length)) ∧
    (("\\cite\x7bA\x7d".toList).length ≤ 20 ∧
      citationsF 20 ("\\cite\x7bA\x7d".toList) = citations ("\\cite\x7bA\x7d".toList)) :=
  ⟨⟨by decide, C6_termination.1 ("\\cite\x7bA\x7d".toList) ⟨[], [], "A".toList⟩ (by decide)⟩,
   ⟨by decide, C6_termination.2 20 ("\\cite\x7bA\x7d".toList) (by decide)⟩⟩

/-- Claim C9: the brace argument is recognised without a closing brace:
the truncated document `\cite{A, B` still yields the keys A and B. -/
theorem C9_unclosed_brace :
    citations ("\\cite\x7bA, B".toList) = ["A".toList, "B".toList] := by
  decide

/-- Claim C7: with no explicit output name and no bibliography declaration
in the comment-stripped text, `build_bib` fails with the
missing-declaration error and exports nothing. -/
theorem C7_missing_declaration :
    ∀ (texRaw : List Char) (store : List BibEntry),
      findBiblio (no_comments texRaw) = [] →
      build_bib texRaw none store = BuildResult.missingBiblio := by
  intro texRaw store h
  simp only [build_bib, resolveBibfile, h]

/-- Witness for claim C7 at a concrete input. -/
theorem C7_missing_declaration_witness :
    findBiblio (no_comments ("\\cite\x7bA\x7d text, no declaration".toList)) = [] ∧
      build_bib ("\\cite\x7bA\x7d text, no declaration".toList) none
        [⟨"A".toList, "ba".toList⟩] = BuildResult.missingBiblio :=
  ⟨by decide, C7_missing_declaration _ _ (by decide)⟩

/-- Claim C8: unresolved citation keys never abort `build_bib`: whenever
the output name resolves, the build returns successfully, reporting as
missing exactly the extracted keys absent from the store, and exporting
exactly the store records of the extracted keys present in the store. -/
theorem C8_partial_build :
    ∀ (texRaw : List Char) (bibfile : Option (List Char)) (store : List BibEntry)
      (name : List Char),
      resolveBibfile (no_comments texRaw) bibfile = some name →
      build_bib texRaw bibfile store =
        BuildResult.ok (exportedBySpec texRaw store) name (missingBySpec texRaw store) := by
  intro texRaw bibfile store name hres
  simp only [build_bib, hres]
  have hmiss :
      ((npUnique (citations (no_comments texRaw))).zip
          ((npUnique (citations (no_comments texRaw))).map
            (fun k => (store.map (fun b => b.key)).contains k))).filterMap
        (fun p => if p.2 then none else some p.1) =
      missingBySpec texRaw store := by
    rw [zip_mask_filterMap_neg]
    rfl
  have hfound :
      ((npUnique (citations (no_comments texRaw))).zip
          ((npUnique (citations (no_comments texRaw))).map
            (fun k => (store.map (fun b => b.key)).contains k))).filterMap
        (fun p => if p.2 then some p.1 else none) =
      (npUnique (citations (no_comments texRaw))).filter
        (fun k => (store.map (fun b => b.key)).contains k) :=
    zip_mask_filterMap_pos _ _
  have hget : (fun k => store[indexOfKey k (store.map (fun b => b.key))]?) =
      (fun k => store.find? (fun e => e.key == k)) :=
    funext (getElem_indexOfKey store)
  have hexp :
      (((npUnique (citations (no_comments texRaw))).filter
          (fun k => (store.map (fun b => b.key)).contains k)).filterMap
        (fun k => store.find? (fun e => e.key == k))) =
      exportedBySpec texRaw store := by
    rw [filterMap_filter_of_none]
    · rfl
    · intro x hx
      exact find?_eq_none_of_not_contains store x hx
  rw [hmiss, hfound, hget, hexp]

/-- Witness for claim C8: a document declaring `refs` and citing X and Y
against a store holding only X builds successfully, exports X's record
only, and reports Y missing. -/
theorem C8_partial_build_witness :
    resolveBibfile (no_comments ("\\bibliography\x7brefs\x7d\n\\cite\x7bX\x7d\n\\cite\x7bY\x7d".toList))
        none = some ("refs.bib".toList) ∧
    build_bib ("\\bibliography\x7brefs\x7d\n\\cite\x7bX\x7d\n\\cite\x7bY\x7d".toList) none
        [⟨"X".toList, "bx".toList⟩] =
      BuildResult.ok
        (exportedBySpec ("\\bibliography\x7brefs\x7d\n\\cite\x7bX\x7d\n\\cite\x7bY\x7d".toList)
          [⟨"X".toList, "bx".toList⟩])
        ("refs.bib".toList)
        (missingBySpec ("\\bibliography\x7brefs\x7d\n\\cite\x7bX\x7d\n\\cite\x7bY\x7d".toList)
          [⟨"X".toList, "bx".toList⟩]) ∧
    exportedBySpec ("\\bibliography\x7brefs\x7d\n\\cite\x7bX\x7d\n\\cite\x7bY\x7d".toList)
        [⟨"X".toList, "bx".toList⟩] = [⟨"X".toList, "bx".toList⟩] ∧
    missingBySpec ("\\bibliography\x7brefs\x7d\n\\cite\x7bX\x7d\n\\cite\x7bY\x7d".toList)
        [⟨"X".toList, "bx".toList⟩] = ["Y".toList] :=
  ⟨by decide,
   C8_partial_build _ none _ _ (by decide),
   by decide,
   by decide⟩


end BibManager
